import Mathlib

/-!
Verification of the syncx concurrency primitives of the repository:
the singleflight call-deduplication engine (singleflight.go), the
resource manager built on top of it (resourcemanager.go), and the
counting-semaphore limiter (core/syncx/limit.go).

The Go code is shallowly embedded: pure functions become Lean
functions, the mutable state of each object is threaded explicitly,
and the concurrent behaviour of the singleflight engine is modelled
by a small-step interleaving semantics over explicit thread states.
-/

namespace Syncx

/-- Keys identifying deduplicated calls and cached resources (Go string keys). -/
abbrev Key := String

/-- Errors are modelled by their Go error message. -/
abbrev Err := String

/-! ### Counting semaphore: core/syncx/limit.go

`Limit` wraps a buffered channel of capacity `n`.  `borrowed` is the number
of placeholder tokens currently buffered in the channel, i.e. the number of
tokens borrowed and not yet returned.  A buffered send succeeds exactly when
the buffer has room; a buffered receive succeeds exactly when the buffer is
nonempty. -/

/-- ErrLimitReturn indicates that more than the borrowed elements were returned. -/
def ErrLimitReturn : Err :=
  "discarding limited token, resource pool is full, someone returned multiple times"

/-- Limit controls the concurrent requests: a channel of capacity `capacity`
currently holding `borrowed` tokens. -/
structure Limit where
  capacity : Nat
  borrowed : Nat
deriving DecidableEq

/-- NewLimit creates a Limit with an empty channel of capacity n. -/
def NewLimit (n : Nat) : Limit := ⟨n, 0⟩

/-- Limit.TryBorrow: non-blocking send (select with default); it succeeds
exactly when the channel buffer has room. -/
def Limit.TryBorrow (l : Limit) : Bool × Limit :=
  if l.borrowed < l.capacity then (true, ⟨l.capacity, l.borrowed + 1⟩) else (false, l)

/-- Limit.Return: non-blocking receive (select with default); it succeeds
exactly when a token is buffered, and otherwise reports the over-release
error without touching the channel. -/
def Limit.Return (l : Limit) : Option Err × Limit :=
  if 0 < l.borrowed then (none, ⟨l.capacity, l.borrowed - 1⟩) else (some ErrLimitReturn, l)

/-- The operations a caller can perform on a Limit. -/
inductive LOp where
  | borrow
  | tryBorrow
  | ret
deriving DecidableEq

/-- One operation against the channel.  `borrow` is the blocking send of
Limit.Borrow: it completes only when the buffer has room; against a full
buffer the caller stays blocked and the channel is unchanged. -/
def Limit.step (l : Limit) : LOp → Limit
  | .borrow => if l.borrowed < l.capacity then ⟨l.capacity, l.borrowed + 1⟩ else l
  | .tryBorrow => (l.TryBorrow).2
  | .ret => (l.Return).2

/-- Run a sequence of operations against the Limit. -/
def Limit.runOps (l : Limit) : List LOp → Limit
  | [] => l
  | op :: ops => (l.step op).runOps ops

/-! ### Singleflight engine: singleflight.go, sequential denotation

This is the sequential (single caller at a time) denotation of
`flightGroup`, used to relate the two entry points `Do` and `DoEx`.
A registered `SCall` stands for an in-flight call; since a joining
caller reads `val`/`err` only after waiting for the completion signal,
the record stores the finalized values.  The concurrent behaviour is
modelled separately below by a small-step semantics. -/

/-- A call record of the flight group: the result value of the work
function (payload type α for the Go `any`; `none` is a nil interface
value) and its error. -/
structure SCall (α : Type) where
  val : Option α
  err : Option Err
deriving DecidableEq

/-- flightGroup: the map from key to the in-flight call, guarded by the lock. -/
structure FlightGroup (α : Type) where
  calls : Key → Option (SCall α)

/-- NewSingleFlight returns an empty flight group. -/
def NewSingleFlight (α : Type) : FlightGroup α := ⟨fun _ => none⟩

variable {α : Type}

/-- flightGroup.createCall: under the lock, look the key up.  If a call is
registered, wait for it and hand it back with done = true (its fields are
the finalized ones).  Otherwise register a fresh record under the key and
hand it back with done = false. -/
def FlightGroup.createCall (g : FlightGroup α) (key : Key) :
    SCall α × Bool × FlightGroup α :=
  match g.calls key with
  | some c => (c, true, g)
  | none =>
      let c : SCall α := ⟨none, none⟩
      (c, false, ⟨fun k => if k = key then some c else g.calls k⟩)

/-- flightGroup.makeCall: run fn, store its result into the call record,
then (deferred) remove the key from the map and fire the completion signal. -/
def FlightGroup.makeCall (g : FlightGroup α) (c : SCall α) (key : Key)
    (fn : Unit → Option α × Option Err) : SCall α × FlightGroup α :=
  let r := fn ()
  (⟨r.1, r.2⟩, ⟨fun k => if k = key then none else g.calls k⟩)

/-- flightGroup.Do: createCall, then either return the joined call's result
or makeCall and return its result. -/
def FlightGroup.Do (g : FlightGroup α) (key : Key) (fn : Unit → Option α × Option Err) :
    (Option α × Option Err) × FlightGroup α :=
  let p := g.createCall key
  if p.2.1 then ((p.1.val, p.1.err), p.2.2)
  else
    let q := p.2.2.makeCall p.1 key fn
    ((q.1.val, q.1.err), q.2)

/-- flightGroup.DoEx: same as Do, also reporting whether the result is fresh
(produced by this call) rather than shared from an in-flight call. -/
def FlightGroup.DoEx (g : FlightGroup α) (key : Key) (fn : Unit → Option α × Option Err) :
    (Option α × Bool × Option Err) × FlightGroup α :=
  let p := g.createCall key
  if p.2.1 then ((p.1.val, false, p.1.err), p.2.2)
  else
    let q := p.2.2.makeCall p.1 key fn
    ((q.1.val, true, q.1.err), q.2)

/-! ### Resource manager: resourcemanager.go -/

/-- A concrete closeable resource (an io.Closer implementation): `id`
identifies the instance and `closeErr` is what its Close() returns. -/
structure Res where
  id : Nat
  closeErr : Option Err
deriving DecidableEq

/-- The resource table `map[string]io.Closer`: the outer `none` is the nil
map installed by Close; an entry value of `none` is a nil interface value
stored under the key. -/
abbrev Table := Option (List (Key × Option Res))

/-- A ResourceManager: the resource table and the singleflight group used to
deduplicate creations (payloads of the group are io.Closer values). -/
structure ResourceManager where
  resources : Table
  singleFlight : FlightGroup Res

/-- NewResourceManager returns a manager with an empty table. -/
def NewResourceManager : ResourceManager := ⟨some [], NewSingleFlight Res⟩

/-- Modelled from the spec: the external error collector
(errorx.BatchError, not part of this repository).  It accumulates the
errors added to it, in order, and yields nil when none were added and a
single combined error carrying all of them otherwise. -/
def batchErr (errs : List Err) : Option (List Err) :=
  if errs.isEmpty then none else some errs

/-- The loop of ResourceManager.Close: close every table entry in order,
collecting the failures; the second component lists the resources whose
Close() was actually invoked.  Invoking Close() on a nil interface entry
panics (`none` result), aborting the loop. -/
def closeAll : List (Key × Option Res) → Option (List Err × List Res)
  | [] => some ([], [])
  | (_, none) :: _ => none
  | (_, some r) :: rest =>
      (closeAll rest).map fun p =>
        (match r.closeErr with
         | some e => e :: p.1
         | none => p.1,
         r :: p.2)

/-- ResourceManager.Close: under the lock, close every held resource
collecting the failures into one combined error, then set the table to nil.
The extra list reports which resources had Close invoked. -/
def ResourceManager.Close (m : ResourceManager) :
    Option (Option (List Err) × ResourceManager × List Res) :=
  (closeAll (m.resources.getD [])).map fun p =>
    (batchErr p.1, ⟨none, m.singleFlight⟩, p.2)

/-- Result of ResourceManager.GetResource: a resource, an error, or the
panic of the unchecked `val.(io.Closer)` type assertion on a nil value. -/
inductive GetOutcome where
  | ok (r : Res)
  | err (e : Err)
  | panic
deriving DecidableEq

/-- The final lines of GetResource: propagate a non-nil error as
`(nil, err)`, otherwise perform the unchecked type assertion
`val.(io.Closer)`, which panics when the deduplicated value is nil. -/
def finish (v : Option Res) (e : Option Err) : GetOutcome :=
  match e with
  | some e => .err e
  | none =>
      match v with
      | some r => .ok r
      | none => .panic

/-- The closure GetResource passes to singleFlight.Do: fast-path lookup of
the key under the read lock, then create(), then install under the write
lock.  The caller-supplied create function is modelled by its return value;
the last component counts how many times create() was invoked, and the
outer `none` is the panic of writing to a nil map. -/
def getWork (key : Key) (create : Option Res × Option Err) (tbl : Table) :
    Option ((Option Res × Option Err) × Table × Nat) :=
  match (tbl.getD []).lookup key with
  | some v => some ((v, none), tbl, 0)
  | none =>
      match create.2 with
      | some e => some ((none, some e), tbl, 1)
      | none =>
          match tbl with
          | none => none
          | some l => some ((create.1, none), some (l ++ [(key, create.1)]), 1)

/-- ResourceManager.GetResource: singleFlight.Do around getWork, then
finish.  The outer match is flightGroup.Do specialised to the effectful
work function: an in-flight call for the key is joined and its finalized
result shared (the closure does not run); otherwise the closure runs once
and the registry entry for the key is removed afterwards by makeCall.  The
Nat reports how many times create() ran; the outer `none` propagates a
panic raised inside the closure. -/
def ResourceManager.GetResource (m : ResourceManager) (key : Key)
    (create : Option Res × Option Err) :
    Option (GetOutcome × ResourceManager × Nat) :=
  match m.singleFlight.calls key with
  | some c => some (finish c.val c.err, m, 0)
  | none =>
      match getWork key create m.resources with
      | none => none
      | some (r, tbl2, n) =>
          some (finish r.1 r.2,
            ⟨tbl2, ⟨fun k => if k = key then none else m.singleFlight.calls k⟩⟩, n)

/-! ### Singleflight engine: concurrent small-step semantics

Each caller of Do/DoEx is a thread.  The shared state is the flight
group: the locked registry `reg` (the `calls` map of the Go code, from
key to call id) and the call records themselves, which survive in
`calls` after deregistration because joined callers still hold
references to them.  Work functions are caller code, modelled by their
(deterministic) result pair.  Thread states track the program position
inside Do/DoEx:

* `start`: about to run createCall;
* `exec`: createCall registered a fresh record for this caller (the
  owner), fn is about to run;
* `removing`: fn has run and its result is stored in the record
  (`c.val, c.err = fn()` in makeCall); the deferred removal of the key
  under the lock is next;
* `signaling`: the key has been removed; firing the completion signal
  (`c.wg.Done()`) is next;
* `waiting`: createCall found an in-flight record and this caller is
  blocked in `c.wg.Wait()`;
* `finished`: the call returned to the caller with the given value,
  fresh flag and error.

Each lock-protected region of the source is one atomic step. -/

/-- An in-flight (or completed) call record, plus bookkeeping: `fn` is the
result pair of the work function bound to this record, `runs` counts how
many times the work function was invoked on behalf of this record,
`finalized` means val/err have been written, `done` means the completion
signal has fired. -/
structure Call (α : Type) where
  fn : Option α × Option Err
  val : Option α
  err : Option Err
  finalized : Bool
  done : Bool
  runs : Nat
deriving DecidableEq

/-- The record freshly allocated by `c = new(call)` in createCall. -/
def newCall (fn : Option α × Option Err) : Call α :=
  ⟨fn, none, none, false, false, 0⟩

/-- Program position of one caller thread. -/
inductive TState (α : Type) where
  | start (key : Key) (fn : Option α × Option Err)
  | exec (key : Key) (cid : Nat) (fn : Option α × Option Err)
  | removing (key : Key) (cid : Nat)
  | signaling (cid : Nat)
  | waiting (cid : Nat)
  | finished (cid : Nat) (val : Option α) (fresh : Bool) (err : Option Err)
deriving DecidableEq

/-- A configuration: the thread pool, the registry (key to active call id),
the call records (id to record; ids below `next` are allocated). -/
structure Config (α : Type) where
  threads : Nat → Option (TState α)
  reg : Key → Option Nat
  calls : Nat → Option (Call α)
  next : Nat

/-- Replace the state of thread i. -/
def updThread (f : Nat → Option (TState α)) (i : Nat) (t : TState α) :
    Nat → Option (TState α) :=
  fun j => if j = i then some t else f j

/-- createCall, join branch: the key is registered, so release the lock and
block on the record's completion signal. -/
def Config.joinSucc (S : Config α) (i : Nat) (cid : Nat) : Config α :=
  { S with threads := updThread S.threads i (.waiting cid) }

/-- createCall, create branch: allocate a fresh record, register it under
the key while still holding the lock, release the lock. -/
def Config.createSucc (S : Config α) (i : Nat) (key : Key)
    (fn : Option α × Option Err) : Config α :=
  { threads := updThread S.threads i (.exec key S.next fn),
    reg := fun k => if k = key then some S.next else S.reg k,
    calls := fun d => if d = S.next then some (newCall fn) else S.calls d,
    next := S.next + 1 }

/-- The result record after `c.val, c.err = fn()` ran in makeCall: the work
function's result pair is stored and the bookkeeping fields are updated. -/
def storeResult (c : Call α) (fn : Option α × Option Err) : Call α :=
  { c with val := fn.1, err := fn.2, finalized := true, runs := c.runs + 1 }

/-- makeCall, body: run fn outside the lock and store its result into the
record (`c.val, c.err = fn()`). -/
def Config.runFnSucc (S : Config α) (i : Nat) (key : Key) (cid : Nat)
    (fn : Option α × Option Err) (c : Call α) : Config α :=
  { S with
    threads := updThread S.threads i (.removing key cid),
    calls := fun d =>
      if d = cid then
        some (storeResult c fn)
      else S.calls d }

/-- makeCall, deferred epilogue, first half: remove the key from the
registry under the lock (`delete(g.calls, key)`). -/
def Config.removeSucc (S : Config α) (i : Nat) (key : Key) (cid : Nat) : Config α :=
  { S with
    threads := updThread S.threads i (.signaling cid),
    reg := fun k => if k = key then none else S.reg k }

/-- makeCall, deferred epilogue, second half: fire the completion signal
(`c.wg.Done()`); the owner then returns the record's result with
fresh = true. -/
def Config.signalSucc (S : Config α) (i : Nat) (cid : Nat) (c : Call α) : Config α :=
  { S with
    threads := updThread S.threads i (.finished cid c.val true c.err),
    calls := fun d => if d = cid then some { c with done := true } else S.calls d }

/-- A waiter wakes up from `c.wg.Wait()` once the signal has fired and
returns the record's finalized result with fresh = false. -/
def Config.waitSucc (S : Config α) (i : Nat) (cid : Nat) (c : Call α) : Config α :=
  { S with threads := updThread S.threads i (.finished cid c.val false c.err) }

/-- The interleaving semantics: any thread able to move may move. -/
inductive Step : Config α → Config α → Prop where
  | join {S : Config α} {i : Nat} {key : Key} {fn : Option α × Option Err} {cid : Nat} :
      S.threads i = some (.start key fn) → S.reg key = some cid →
      Step S (S.joinSucc i cid)
  | create {S : Config α} {i : Nat} {key : Key} {fn : Option α × Option Err} :
      S.threads i = some (.start key fn) → S.reg key = none →
      Step S (S.createSucc i key fn)
  | runFn {S : Config α} {i : Nat} {key : Key} {cid : Nat}
      {fn : Option α × Option Err} {c : Call α} :
      S.threads i = some (.exec key cid fn) → S.calls cid = some c →
      Step S (S.runFnSucc i key cid fn c)
  | remove {S : Config α} {i : Nat} {key : Key} {cid : Nat} :
      S.threads i = some (.removing key cid) →
      Step S (S.removeSucc i key cid)
  | signal {S : Config α} {i : Nat} {cid : Nat} {c : Call α} :
      S.threads i = some (.signaling cid) → S.calls cid = some c →
      Step S (S.signalSucc i cid c)
  | waitDone {S : Config α} {i : Nat} {cid : Nat} {c : Call α} :
      S.threads i = some (.waiting cid) → S.calls cid = some c → c.done = true →
      Step S (S.waitSucc i cid c)

/-- Reachability: reflexive-transitive closure of Step. -/
inductive Reach : Config α → Config α → Prop where
  | refl (S : Config α) : Reach S S
  | tail {S T U : Config α} : Reach S T → Step T U → Reach S U

/-- The initial configuration for a pool of callers, each about to invoke
Do/DoEx on its key with its work function, against a fresh flight group. -/
def initConfig (ts : List (Key × (Option α × Option Err))) : Config α :=
  { threads := fun i => (ts[i]?).map fun p => .start p.1 p.2,
    reg := fun _ => none,
    calls := fun _ => none,
    next := 0 }

/-- Thread state `t` owns call `d`: it is the caller whose createCall
allocated the record and which runs (or ran) the work function for it. -/
def ownerOf : TState α → Nat → Prop
  | .exec _ cid _, d => cid = d
  | .removing _ cid, d => cid = d
  | .signaling cid, d => cid = d
  | .finished cid _ fresh _, d => cid = d ∧ fresh = true
  | _, _ => False

/-- The inductive invariant of the flight group semantics. -/
structure Inv (S : Config α) : Prop where
  next_calls : ∀ cid, S.next ≤ cid → S.calls cid = none
  owner_lt : ∀ i t cid, S.threads i = some t → ownerOf t cid → cid < S.next
  owner_uniq : ∀ i j t₁ t₂ cid, S.threads i = some t₁ → S.threads j = some t₂ →
    ownerOf t₁ cid → ownerOf t₂ cid → i = j
  owner_exists : ∀ cid c, S.calls cid = some c →
    ∃ i t, S.threads i = some t ∧ ownerOf t cid
  reg_owner : ∀ k cid, S.reg k = some cid →
    ∃ i, (∃ fn, S.threads i = some (.exec k cid fn)) ∨
      S.threads i = some (.removing k cid)
  exec_state : ∀ i k cid fn, S.threads i = some (.exec k cid fn) →
    S.reg k = some cid ∧ ∃ c, S.calls cid = some c ∧ c.runs = 0 ∧
      c.finalized = false ∧ c.done = false ∧ c.fn = fn
  removing_state : ∀ i k cid, S.threads i = some (.removing k cid) →
    S.reg k = some cid ∧ ∃ c, S.calls cid = some c ∧ c.finalized = true ∧ c.done = false
  signaling_state : ∀ i cid, S.threads i = some (.signaling cid) →
    (∀ k, S.reg k ≠ some cid) ∧ ∃ c, S.calls cid = some c ∧ c.finalized = true ∧ c.done = false
  finalized_vals : ∀ cid c, S.calls cid = some c → c.finalized = true →
    c.val = c.fn.1 ∧ c.err = c.fn.2 ∧ c.runs = 1
  unfinalized_runs : ∀ cid c, S.calls cid = some c → c.finalized = false → c.runs = 0
  done_finalized : ∀ cid c, S.calls cid = some c → c.done = true → c.finalized = true
  done_unreg : ∀ cid c k, S.calls cid = some c → c.done = true → S.reg k ≠ some cid
  waiting_call : ∀ i cid, S.threads i = some (.waiting cid) → ∃ c, S.calls cid = some c
  finished_call : ∀ i cid v f e, S.threads i = some (.finished cid v f e) →
    ∃ c, S.calls cid = some c ∧ c.finalized = true ∧ c.val = v ∧ c.err = e ∧ c.done = true

/-! Concrete run used to instantiate the concurrent theorems: two callers
share the key "a"; caller 0 creates and executes, caller 1 joins. -/

/-- Two concurrent callers with the same key and distinct work functions. -/
def exTs : List (Key × (Option Nat × Option Err)) :=
  [("a", (some 1, none)), ("a", (some 2, none))]

def exS0 : Config Nat := initConfig exTs

def exS1 : Config Nat := exS0.createSucc 0 "a" (some 1, none)

def exS2 : Config Nat := exS1.joinSucc 1 0

def exS3 : Config Nat := exS2.runFnSucc 0 "a" 0 (some 1, none) (newCall (some 1, none))

def exS4 : Config Nat := exS3.removeSucc 0 "a" 0

/-- The call record of the example after fn ran and its result was stored. -/
def exC : Call Nat :=
  { fn := (some 1, none), val := some 1, err := none,
    finalized := true, done := false, runs := 1 }

def exS5 : Config Nat := exS4.signalSucc 0 0 exC

def exFinal : Config Nat := exS5.waitSucc 1 0 { exC with done := true }

/-! Concrete managers used to instantiate the resource-manager theorems. -/

/-- A manager holding R1 (closes fine) and R2 (close fails with "E"). -/
def exTbl : List (Key × Option Res) := [("a", some ⟨1, none⟩), ("b", some ⟨2, some "E"⟩)]

def exMgr : ResourceManager := ⟨some exTbl, NewSingleFlight Res⟩

/-- A fresh manager with an empty table. -/
def exMgrEmpty : ResourceManager := ⟨some [], NewSingleFlight Res⟩

def exR : Res := ⟨5, none⟩

/-- A manager already holding a resource under "k". -/
def exMgrOne : ResourceManager := ⟨some [("k", some exR)], NewSingleFlight Res⟩

/-! ### Helper lemmas -/

theorem lookup_mem {β : Type} {l : List (Key × β)} {k : Key} {v : β}
    (h : l.lookup k = some v) : (k, v) ∈ l := by
  induction l with
  | nil => simp [List.lookup] at h
  | cons p t ih =>
      cases p with
      | mk a b =>
          rw [List.lookup] at h
          by_cases hk : k = a
          · subst hk
            simp at h
            simp [h]
          · have hne : (k == a) = false := by simp [hk]
            rw [hne] at h
            simp only [List.mem_cons]
            exact Or.inr (ih h)

theorem lookup_append_left {β : Type} {l₁ l₂ : List (Key × β)} {k : Key} {v : β}
    (h : l₁.lookup k = some v) : (l₁ ++ l₂).lookup k = some v := by
  induction l₁ with
  | nil => simp [List.lookup] at h
  | cons p t ih =>
      cases p with
      | mk a b =>
          rw [List.lookup] at h
          by_cases hk : k = a
          · subst hk
            simp at h
            simp [List.lookup, h]
          · have hne : (k == a) = false := by simp [hk]
            rw [hne] at h
            simpa [List.lookup, hne] using ih h

theorem runOps_le (ops : List LOp) : ∀ l : Limit, l.borrowed ≤ l.capacity →
    (l.runOps ops).capacity = l.capacity ∧ (l.runOps ops).borrowed ≤ l.capacity := by
  induction ops with
  | nil => intro l h; exact ⟨rfl, h⟩
  | cons op ops ih =>
      intro l h
      have hs : (l.step op).capacity = l.capacity ∧ (l.step op).borrowed ≤ l.capacity := by
        cases op <;> simp only [Limit.step, Limit.TryBorrow, Limit.Return] <;> split <;>
          simp <;> omega
      have := ih (l.step op) (hs.1 ▸ hs.2)
      rw [Limit.runOps]
      exact ⟨this.1.trans hs.1, by omega⟩

/-! ### Claims about the counting semaphore -/

/-- Claim C7: a Return on a Limit with nothing borrowed yields the over-release
error and leaves the state unchanged, so any subsequent operations behave
exactly as without the over-release; a Return with at least one token
borrowed succeeds and decrements the outstanding count. -/
theorem limit_return_over_release (l : Limit) :
    (l.borrowed = 0 →
      l.Return = (some ErrLimitReturn, l) ∧
      ∀ ops : List LOp, Limit.runOps (l.Return).2 ops = Limit.runOps l ops) ∧
    (0 < l.borrowed →
      l.Return = (none, ⟨l.capacity, l.borrowed - 1⟩)) := by
  constructor
  · intro h
    have hr : l.Return = (some ErrLimitReturn, l) := by
      simp [Limit.Return, h]
    exact ⟨hr, fun ops => by rw [hr]⟩
  · intro h
    simp [Limit.Return, h]

/-- Claim C7 witness. -/
theorem limit_return_over_release_witness :
    (NewLimit 2).Return = (some ErrLimitReturn, NewLimit 2) :=
  ((limit_return_over_release (NewLimit 2)).1 rfl).1

/-- Claim C8: for a Limit of capacity n, the outstanding count never exceeds n
under any sequence of Borrow, TryBorrow and Return operations; TryBorrow on
a full Limit fails without changing the state, and TryBorrow with room
succeeds and increments the outstanding count. -/
theorem limit_bound (n : Nat) (ops : List LOp) :
    ((NewLimit n).runOps ops).borrowed ≤ n ∧
    (∀ l : Limit, l.borrowed = l.capacity → l.TryBorrow = (false, l)) ∧
    (∀ l : Limit, l.borrowed < l.capacity →
      l.TryBorrow = (true, ⟨l.capacity, l.borrowed + 1⟩)) := by
    refine ⟨(runOps_le ops (NewLimit n) (Nat.zero_le n)).2, ?_, ?_⟩
    · intro l h
      simp [Limit.TryBorrow, h]
    · intro l h
      simp [Limit.TryBorrow, h]

/-- Claim C8 witness. -/
theorem limit_bound_witness :
    (NewLimit 1).TryBorrow = (true, ⟨1, 1⟩) :=
  (limit_bound 1 []).2.2 (NewLimit 1) (by decide)

/-- Claim C9: on a Limit of capacity zero, in every reachable state, TryBorrow
returns false and Return returns the over-release error, and the state
never moves away from the initial one. -/
theorem limit_zero_capacity (ops : List LOp) :
    (((NewLimit 0).runOps ops).TryBorrow).1 = false ∧
    (((NewLimit 0).runOps ops).Return).1 = some ErrLimitReturn ∧
    (NewLimit 0).runOps ops = NewLimit 0 := by
  have h := runOps_le ops (NewLimit 0) (Nat.le_refl 0)
  have hcap : ((NewLimit 0).runOps ops).capacity = 0 := h.1
  have hbor : ((NewLimit 0).runOps ops).borrowed = 0 := by omega
  refine ⟨?_, ?_, ?_⟩
  · simp [Limit.TryBorrow, hcap, hbor]
  · simp [Limit.Return, hbor]
  · cases hrun : (NewLimit 0).runOps ops with
    | mk c b =>
        rw [hrun] at hcap hbor
        simp only at hcap hbor
        rw [hcap, hbor]
        rfl

/-! ### Claim C6: Do against DoEx -/

/-- Claim C6: for every key and work function, Do returns exactly the result and
error that DoEx returns from the same flight-group state, and leaves the
group in the same state; DoEx only adds the fresh flag. -/
theorem do_matches_doEx (g : FlightGroup α) (key : Key)
    (fn : Unit → Option α × Option Err) :
    (g.Do key fn).1.1 = (g.DoEx key fn).1.1 ∧
    (g.Do key fn).1.2 = (g.DoEx key fn).1.2.2 ∧
    (g.Do key fn).2 = (g.DoEx key fn).2 := by
  cases h : g.calls key with
  | some c =>
      simp [FlightGroup.Do, FlightGroup.DoEx, FlightGroup.createCall, h]
  | none =>
      simp [FlightGroup.Do, FlightGroup.DoEx, FlightGroup.createCall,
        FlightGroup.makeCall, h]

/-! ### Claims about the resource manager -/

theorem batchErr_eq_none (errs : List Err) : batchErr errs = none ↔ errs = [] := by
  cases errs <;> simp [batchErr]

theorem closeAll_spec (tbl : List (Key × Option Res)) (hnn : ∀ p ∈ tbl, p.2 ≠ none) :
    ∃ errs closed, closeAll tbl = some (errs, closed) ∧
      closed = tbl.filterMap Prod.snd ∧
      (errs = [] ↔ ∀ p ∈ tbl, ∀ r : Res, p.2 = some r → r.closeErr = none) ∧
      (∀ p ∈ tbl, ∀ r : Res, ∀ e : Err, p.2 = some r → r.closeErr = some e → e ∈ errs) := by
  induction tbl with
  | nil => exact ⟨[], [], rfl, rfl, by simp, by simp⟩
  | cons p t ih =>
      obtain ⟨k, v⟩ := p
      cases v with
      | none => exact absurd rfl (hnn (k, none) (List.mem_cons_self _ _))
      | some r =>
          obtain ⟨errs, closed, hca, hcl, hiff, hmem⟩ :=
            ih (fun q hq => hnn q (List.mem_cons_of_mem _ hq))
          cases hce : r.closeErr with
          | some e0 =>
              refine ⟨e0 :: errs, r :: closed, ?_, ?_, ?_, ?_⟩
              · simp [closeAll, hca, hce]
              · simp [hcl]
              · constructor
                · intro h; cases h
                · intro h
                  have := h (k, some r) (List.mem_cons_self _ _) r rfl
                  rw [hce] at this; cases this
              · intro q hq r2 e hq2 he
                rcases List.mem_cons.mp hq with h1 | h2
                · rw [h1] at hq2
                  simp only at hq2
                  injection hq2 with hq2
                  rw [← hq2, hce] at he
                  injection he with he
                  rw [← he]
                  exact List.mem_cons_self _ _
                · exact List.mem_cons_of_mem _ (hmem q h2 r2 e hq2 he)
          | none =>
              refine ⟨errs, r :: closed, ?_, ?_, ?_, ?_⟩
              · simp [closeAll, hca, hce]
              · simp [hcl]
              · rw [hiff]
                constructor
                · intro h q hq r2 hq2
                  rcases List.mem_cons.mp hq with h1 | h2
                  · rw [h1] at hq2
                    simp only at hq2
                    injection hq2 with hq2
                    rw [← hq2]
                    exact hce
                  · exact h q h2 r2 hq2
                · intro h q hq r2 hq2
                  exact h q (List.mem_cons_of_mem _ hq) r2 hq2
              · intro q hq r2 e hq2 he
                rcases List.mem_cons.mp hq with h1 | h2
                · rw [h1] at hq2
                  simp only at hq2
                  injection hq2 with hq2
                  rw [← hq2, hce] at he
                  cases he
                · exact hmem q h2 r2 e hq2 he

/-- Claim C5: Close invokes Close() on every resource held in the table, in order,
none skipped because another close failed; every individual failure is
collected into the single combined error, which is nil exactly when no close
failed; and the table is set to nil in all cases. -/
theorem close_closes_all (m : ResourceManager) (tbl : List (Key × Option Res))
    (htbl : m.resources = some tbl)
    (hnn : ∀ p ∈ tbl, p.2 ≠ none) :
    ∃ errs closed,
      m.Close = some (batchErr errs, ⟨none, m.singleFlight⟩, closed) ∧
      closed = tbl.filterMap Prod.snd ∧
      (batchErr errs = none ↔ ∀ p ∈ tbl, ∀ r : Res, p.2 = some r → r.closeErr = none) ∧
      (∀ p ∈ tbl, ∀ r : Res, ∀ e : Err, p.2 = some r → r.closeErr = some e → e ∈ errs) := by
  obtain ⟨errs, closed, hca, hcl, hiff, hmem⟩ := closeAll_spec tbl hnn
  refine ⟨errs, closed, ?_, hcl, ?_, hmem⟩
  · simp [ResourceManager.Close, htbl, hca]
  · rw [batchErr_eq_none]
    exact hiff

/-- Claim C5 witness: the spec's R1/R2 scenario. -/
theorem close_closes_all_witness :
    ∃ errs closed,
      exMgr.Close = some (batchErr errs, ⟨none, exMgr.singleFlight⟩, closed) ∧
      closed = exTbl.filterMap Prod.snd ∧
      (batchErr errs = none ↔ ∀ p ∈ exTbl, ∀ r : Res, p.2 = some r → r.closeErr = none) ∧
      (∀ p ∈ exTbl, ∀ r : Res, ∀ e : Err, p.2 = some r → r.closeErr = some e → e ∈ errs) :=
  close_closes_all exMgr exTbl rfl (by decide)

theorem flight_erase_eq {g : FlightGroup α} {key : Key} (h : g.calls key = none) :
    (⟨fun k => if k = key then none else g.calls k⟩ : FlightGroup α) = g := by
  obtain ⟨f⟩ := g
  congr 1
  funext k
  by_cases hk : k = key
  · subst hk
    rw [if_pos rfl]
    exact h.symm
  · simp [hk]

/-- Claim C3: once a resource is stored for a key (and no call for it is in
flight), GetResource returns the identical stored instance through the
read-lock fast path, does not invoke create, and leaves the manager
unchanged; moreover no GetResource call ever removes or replaces a stored
entry, so this holds for every later call. -/
theorem getResource_create_once (m : ResourceManager) (tbl : List (Key × Option Res))
    (key : Key) (r : Res) (create : Option Res × Option Err)
    (htbl : m.resources = some tbl)
    (hhit : tbl.lookup key = some (some r))
    (hfl : m.singleFlight.calls key = none) :
    m.GetResource key create = some (.ok r, m, 0) ∧
    (∀ key₂ create₂ out m₂ n k v,
      m.GetResource key₂ create₂ = some (out, m₂, n) →
      ∀ tbl₀, m.resources = some tbl₀ → tbl₀.lookup k = some v →
      ∃ tbl₂, m₂.resources = some tbl₂ ∧ tbl₂.lookup k = some v) := by
  have hm : (⟨some tbl,
      ⟨fun k => if k = key then none else m.singleFlight.calls k⟩⟩ : ResourceManager) = m := by
    rw [flight_erase_eq hfl, ← htbl]
  constructor
  · rw [show m.GetResource key create =
        some (finish (some r) none,
          ⟨some tbl, ⟨fun k => if k = key then none else m.singleFlight.calls k⟩⟩, 0) from by
      simp [ResourceManager.GetResource, hfl, htbl, getWork, hhit]]
    rw [hm]
    rfl
  · intro key₂ create₂ out m₂ n k v hrun tbl₀ htbl₀ hv
    rw [ResourceManager.GetResource] at hrun
    cases hj : m.singleFlight.calls key₂ with
    | some c =>
        rw [hj] at hrun
        simp only [Option.some.injEq, Prod.mk.injEq] at hrun
        exact ⟨tbl₀, by rw [← hrun.2.1, htbl₀], hv⟩
    | none =>
        rw [hj, htbl₀] at hrun
        cases hlk : tbl₀.lookup key₂ with
        | some v₂ =>
            simp only [getWork, Option.getD, hlk, Option.some.injEq, Prod.mk.injEq] at hrun
            refine ⟨tbl₀, ?_, hv⟩
            rw [← hrun.2.1]
        | none =>
            cases hc2 : create₂.2 with
            | some e₂ =>
                simp only [getWork, Option.getD, hlk, hc2,
                  Option.some.injEq, Prod.mk.injEq] at hrun
                refine ⟨tbl₀, ?_, hv⟩
                rw [← hrun.2.1]
            | none =>
                simp only [getWork, Option.getD, hlk, hc2,
                  Option.some.injEq, Prod.mk.injEq] at hrun
                refine ⟨tbl₀ ++ [(key₂, create₂.1)], ?_, lookup_append_left hv⟩
                rw [← hrun.2.1]

/-- Claim C3 witness. -/
theorem getResource_create_once_witness :
    exMgrOne.GetResource "k" (none, some "ignored") = some (.ok exR, exMgrOne, 0) :=
  (getResource_create_once exMgrOne [("k", some exR)] "k" exR (none, some "ignored")
    rfl (by decide) rfl).1

/-- Claim C4: when the create function fails, GetResource returns (nil, that
error), installs nothing, leaves the whole manager (table and singleflight
registry) exactly as if creation had never been attempted, and a subsequent
GetResource for the key invokes its create function again. -/
theorem getResource_failed_create (m : ResourceManager) (tbl : List (Key × Option Res))
    (key : Key) (create : Option Res × Option Err) (e : Err)
    (hfl : m.singleFlight.calls key = none)
    (htbl : m.resources = some tbl)
    (hmiss : tbl.lookup key = none)
    (herr : create.2 = some e) :
    m.GetResource key create = some (.err e, m, 1) ∧
    (∀ create₂, ∃ out m₂, m.GetResource key create₂ = some (out, m₂, 1)) := by
  have hm : (⟨some tbl,
      ⟨fun k => if k = key then none else m.singleFlight.calls k⟩⟩ : ResourceManager) = m := by
    rw [flight_erase_eq hfl, ← htbl]
  constructor
  · rw [show m.GetResource key create =
        some (finish none (some e),
          ⟨some tbl, ⟨fun k => if k = key then none else m.singleFlight.calls k⟩⟩, 1) from by
      simp [ResourceManager.GetResource, hfl, htbl, getWork, hmiss, herr]]
    rw [hm]
    rfl
  · intro create₂
    cases hc2 : create₂.2 with
    | some e₂ =>
        refine ⟨.err e₂,
          ⟨some tbl, ⟨fun k => if k = key then none else m.singleFlight.calls k⟩⟩, ?_⟩
        simp [ResourceManager.GetResource, hfl, htbl, getWork, hmiss, hc2, finish]
    | none =>
        refine ⟨finish create₂.1 none,
          ⟨some (tbl ++ [(key, create₂.1)]),
            ⟨fun k => if k = key then none else m.singleFlight.calls k⟩⟩, ?_⟩
        simp [ResourceManager.GetResource, hfl, htbl, getWork, hmiss, hc2]

/-- Claim C4 witness. -/
theorem getResource_failed_create_witness :
    exMgrEmpty.GetResource "k" (none, some "boom") = some (.err "boom", exMgrEmpty, 1) :=
  (getResource_failed_create exMgrEmpty [] "k" (none, some "boom") "boom"
    rfl rfl rfl rfl).1

/-- Claim C10 counterexample: a create function that returns a nil io.Closer with
a nil error makes the deduplicated work function return a nil value with a
nil error, and the unchecked val.(io.Closer) assertion on the success path
of GetResource panics. -/
theorem getResource_nil_create_panics :
    (exMgrEmpty.GetResource "k" (none, none)).map Prod.fst = some GetOutcome.panic := rfl

/-- Claim C10 amended: provided the create function never returns a nil value with
a nil error, the table holds no nil entries, and any in-flight call for the
key does not carry a nil value with a nil error, the type assertion on the
success path always succeeds: GetResource never panics. -/
theorem getResource_no_panic (m : ResourceManager) (key : Key)
    (create : Option Res × Option Err) (out : GetOutcome)
    (hc : create.2 = none → create.1 ≠ none)
    (ht : ∀ tbl, m.resources = some tbl → ∀ p ∈ tbl, p.2 ≠ none)
    (hf : ∀ c, m.singleFlight.calls key = some c → c.err = none → c.val ≠ none)
    (h : (m.GetResource key create).map Prod.fst = some out) :
    out ≠ GetOutcome.panic := by
  rw [ResourceManager.GetResource] at h
  cases hj : m.singleFlight.calls key with
  | some c =>
      rw [hj] at h
      simp at h
      cases hce : c.err with
      | some e =>
          rw [hce] at h
          simp [finish] at h
          subst h
          simp
      | none =>
          cases hcv : c.val with
          | none => exact absurd hcv (hf c hj hce)
          | some r =>
              rw [hce, hcv] at h
              simp [finish] at h
              subst h
              simp
  | none =>
      rw [hj] at h
      cases htb : m.resources with
      | none =>
          rw [htb] at h
          cases hc2 : create.2 with
          | some e =>
              simp [getWork, hc2, finish] at h
              subst h
              simp
          | none =>
              simp [getWork, hc2] at h
      | some tbl =>
          rw [htb] at h
          cases hlk : tbl.lookup key with
          | some v =>
              cases hv : v with
              | none =>
                  have hmem := ht tbl htb (key, v) (lookup_mem hlk)
                  rw [hv] at hmem
                  exact absurd rfl hmem
              | some r =>
                  rw [hv] at hlk
                  simp [getWork, hlk, finish] at h
                  subst h
                  simp
          | none =>
              cases hc2 : create.2 with
              | some e =>
                  simp [getWork, hlk, hc2, finish] at h
                  subst h
                  simp
              | none =>
                  cases hc1 : create.1 with
                  | none => exact absurd hc1 (hc hc2)
                  | some r =>
                      simp [getWork, hlk, hc2, hc1, finish] at h
                      subst h
                      simp

/-- Claim C10 amended witness. -/
theorem getResource_no_panic_witness :
    GetOutcome.ok ⟨7, none⟩ ≠ GetOutcome.panic :=
  getResource_no_panic exMgrEmpty "k" (some ⟨7, none⟩, none) (GetOutcome.ok ⟨7, none⟩)
    (fun _ hn => by cases hn)
    (fun tbl htt => by
      injection htt with htt
      rw [← htt]
      intro p hp
      cases hp)
    (fun c hcc => by cases hcc)
    rfl

/-! ### Invariant preservation for the concurrent semantics -/

theorem updThread_self {f : Nat → Option (TState α)} {i : Nat} {t : TState α} :
    updThread f i t i = some t := by
  simp [updThread]

theorem updThread_ne {f : Nat → Option (TState α)} {i j : Nat} {t : TState α}
    (h : j ≠ i) : updThread f i t j = f j := by
  simp [updThread, h]

theorem updThread_cases {f : Nat → Option (TState α)} {i j : Nat} {t u : TState α}
    (h : updThread f i t j = some u) : (j = i ∧ u = t) ∨ (j ≠ i ∧ f j = some u) := by
  by_cases hji : j = i
  · subst hji
    simp [updThread] at h
    exact Or.inl ⟨rfl, h.symm⟩
  · rw [updThread_ne hji] at h
    exact Or.inr ⟨hji, h⟩

theorem ownerOf_exec {k : Key} {d : Nat} {fn : Option α × Option Err} :
    ownerOf (TState.exec k d fn) d := rfl

theorem ownerOf_removing {k : Key} {d : Nat} : ownerOf (TState.removing k d : TState α) d := rfl

theorem ownerOf_signaling {d : Nat} : ownerOf (TState.signaling d : TState α) d := rfl

theorem ownerOf_finished {d : Nat} {v : Option α} {e : Option Err} :
    ownerOf (TState.finished d v true e) d := ⟨rfl, rfl⟩

theorem initConfig_start {ts : List (Key × (Option α × Option Err))} {i : Nat} {t : TState α}
    (h : (initConfig ts).threads i = some t) : ∃ k fn, t = TState.start k fn := by
  simp only [initConfig, Option.map_eq_some'] at h
  obtain ⟨p, _, hf⟩ := h
  exact ⟨p.1, p.2, hf.symm⟩

theorem inv_init (ts : List (Key × (Option α × Option Err))) : Inv (initConfig ts) := by
  refine { next_calls := fun _ _ => rfl,
           owner_lt := ?_, owner_uniq := ?_, owner_exists := ?_, reg_owner := ?_,
           exec_state := ?_, removing_state := ?_, signaling_state := ?_,
           finalized_vals := ?_, unfinalized_runs := ?_, done_finalized := ?_,
           done_unreg := ?_, waiting_call := ?_, finished_call := ?_ }
  · intro i t cid hth ho
    obtain ⟨k, fn, rfl⟩ := initConfig_start hth
    exact absurd ho (by simp [ownerOf])
  · intro i j t₁ t₂ cid h₁ h₂ o₁ o₂
    obtain ⟨k, fn, rfl⟩ := initConfig_start h₁
    exact absurd o₁ (by simp [ownerOf])
  · intro cid c hc
    exact Option.noConfusion hc
  · intro k cid hk
    exact Option.noConfusion hk
  · intro i k cid fn hth
    obtain ⟨k2, fn2, heq⟩ := initConfig_start hth
    simp at heq
  · intro i k cid hth
    obtain ⟨k2, fn2, heq⟩ := initConfig_start hth
    simp at heq
  · intro i cid hth
    obtain ⟨k2, fn2, heq⟩ := initConfig_start hth
    simp at heq
  · intro cid c hc
    exact Option.noConfusion hc
  · intro cid c hc
    exact Option.noConfusion hc
  · intro cid c hc
    exact Option.noConfusion hc
  · intro cid c k hc
    exact absurd hc (by intro h; exact Option.noConfusion h)
  · intro i cid hth
    obtain ⟨k2, fn2, heq⟩ := initConfig_start hth
    simp at heq
  · intro i cid v f e hth
    obtain ⟨k2, fn2, heq⟩ := initConfig_start hth
    simp at heq

theorem inv_join {S : Config α} {i : Nat} {key : Key} {fn : Option α × Option Err} {cid : Nat}
    (hI : Inv S) (hth : S.threads i = some (.start key fn)) (hreg : S.reg key = some cid) :
    Inv (S.joinSucc i cid) := by
  refine { next_calls := hI.next_calls,
           owner_lt := ?_, owner_uniq := ?_, owner_exists := ?_, reg_owner := ?_,
           exec_state := ?_, removing_state := ?_, signaling_state := ?_,
           finalized_vals := hI.finalized_vals, unfinalized_runs := hI.unfinalized_runs,
           done_finalized := hI.done_finalized, done_unreg := hI.done_unreg,
           waiting_call := ?_, finished_call := ?_ }
  · intro j t d hj ho
    rcases updThread_cases hj with ⟨rfl, rfl⟩ | ⟨hne, hold⟩
    · exact absurd ho (by simp [ownerOf])
    · exact hI.owner_lt j t d hold ho
  · intro j₁ j₂ t₁ t₂ d h₁ h₂ o₁ o₂
    rcases updThread_cases h₁ with ⟨rfl, rfl⟩ | ⟨hn₁, ho₁⟩
    · exact absurd o₁ (by simp [ownerOf])
    · rcases updThread_cases h₂ with ⟨rfl, rfl⟩ | ⟨hn₂, ho₂⟩
      · exact absurd o₂ (by simp [ownerOf])
      · exact hI.owner_uniq j₁ j₂ t₁ t₂ d ho₁ ho₂ o₁ o₂
  · intro d c hc
    obtain ⟨j, t, hjt, hot⟩ := hI.owner_exists d c hc
    have hji : j ≠ i := by
      intro hji
      subst hji
      rw [hth] at hjt
      injection hjt with hjt
      subst hjt
      exact absurd hot (by simp [ownerOf])
    refine ⟨j, t, ?_, hot⟩
    show updThread S.threads i (.waiting cid) j = some t
    rw [updThread_ne hji]
    exact hjt
  · intro k d hk
    obtain ⟨j, hj⟩ := hI.reg_owner k d hk
    have hji : j ≠ i := by
      intro hji
      subst hji
      rcases hj with ⟨fn2, hj⟩ | hj <;> rw [hth] at hj <;> simp at hj
    refine ⟨j, ?_⟩
    show (∃ fn2, updThread S.threads i (.waiting cid) j = some (.exec k d fn2)) ∨
      updThread S.threads i (.waiting cid) j = some (.removing k d)
    rw [updThread_ne hji]
    exact hj
  · intro j k d fn2 hj
    rcases updThread_cases hj with ⟨rfl, heq⟩ | ⟨hne, hold⟩
    · simp at heq
    · exact hI.exec_state j k d fn2 hold
  · intro j k d hj
    rcases updThread_cases hj with ⟨rfl, heq⟩ | ⟨hne, hold⟩
    · simp at heq
    · exact hI.removing_state j k d hold
  · intro j d hj
    rcases updThread_cases hj with ⟨rfl, heq⟩ | ⟨hne, hold⟩
    · simp at heq
    · exact hI.signaling_state j d hold
  · intro j d hj
    rcases updThread_cases hj with ⟨rfl, heq⟩ | ⟨hne, hold⟩
    · injection heq with hdc
      subst hdc
      obtain ⟨j₂, hj₂⟩ := hI.reg_owner key d hreg
      rcases hj₂ with ⟨fn₂, hj₂⟩ | hj₂
      · obtain ⟨-, c, hc, -, -, -, -⟩ := hI.exec_state j₂ key d fn₂ hj₂
        exact ⟨c, hc⟩
      · obtain ⟨-, c, hc, -, -⟩ := hI.removing_state j₂ key d hj₂
        exact ⟨c, hc⟩
    · exact hI.waiting_call j d hold
  · intro j d v f e hj
    rcases updThread_cases hj with ⟨rfl, heq⟩ | ⟨hne, hold⟩
    · simp at heq
    · exact hI.finished_call j d v f e hold

theorem inv_waitDone {S : Config α} {i : Nat} {cid : Nat} {c : Call α}
    (hI : Inv S) (hth : S.threads i = some (.waiting cid)) (hc : S.calls cid = some c)
    (hd : c.done = true) :
    Inv (S.waitSucc i cid c) := by
  refine { next_calls := hI.next_calls,
           owner_lt := ?_, owner_uniq := ?_, owner_exists := ?_, reg_owner := ?_,
           exec_state := ?_, removing_state := ?_, signaling_state := ?_,
           finalized_vals := hI.finalized_vals, unfinalized_runs := hI.unfinalized_runs,
           done_finalized := hI.done_finalized, done_unreg := hI.done_unreg,
           waiting_call := ?_, finished_call := ?_ }
  · intro j t d hj ho
    rcases updThread_cases hj with ⟨rfl, rfl⟩ | ⟨hne, hold⟩
    · exact absurd ho (by simp [ownerOf])
    · exact hI.owner_lt j t d hold ho
  · intro j₁ j₂ t₁ t₂ d h₁ h₂ o₁ o₂
    rcases updThread_cases h₁ with ⟨rfl, rfl⟩ | ⟨hn₁, ho₁⟩
    · exact absurd o₁ (by simp [ownerOf])
    · rcases updThread_cases h₂ with ⟨rfl, rfl⟩ | ⟨hn₂, ho₂⟩
      · exact absurd o₂ (by simp [ownerOf])
      · exact hI.owner_uniq j₁ j₂ t₁ t₂ d ho₁ ho₂ o₁ o₂
  · intro d c₂ hc₂
    obtain ⟨j, t, hjt, hot⟩ := hI.owner_exists d c₂ hc₂
    have hji : j ≠ i := by
      intro hji
      subst hji
      rw [hth] at hjt
      injection hjt with hjt
      subst hjt
      exact absurd hot (by simp [ownerOf])
    refine ⟨j, t, ?_, hot⟩
    show updThread S.threads i (.finished cid c.val false c.err) j = some t
    rw [updThread_ne hji]
    exact hjt
  · intro k d hk
    obtain ⟨j, hj⟩ := hI.reg_owner k d hk
    have hji : j ≠ i := by
      intro hji
      subst hji
      rcases hj with ⟨fn2, hj⟩ | hj <;> rw [hth] at hj <;> simp at hj
    refine ⟨j, ?_⟩
    show (∃ fn2, updThread S.threads i (.finished cid c.val false c.err) j =
        some (.exec k d fn2)) ∨
      updThread S.threads i (.finished cid c.val false c.err) j = some (.removing k d)
    rw [updThread_ne hji]
    exact hj
  · intro j k d fn2 hj
    rcases updThread_cases hj with ⟨rfl, heq⟩ | ⟨hne, hold⟩
    · simp at heq
    · exact hI.exec_state j k d fn2 hold
  · intro j k d hj
    rcases updThread_cases hj with ⟨rfl, heq⟩ | ⟨hne, hold⟩
    · simp at heq
    · exact hI.removing_state j k d hold
  · intro j d hj
    rcases updThread_cases hj with ⟨rfl, heq⟩ | ⟨hne, hold⟩
    · simp at heq
    · exact hI.signaling_state j d hold
  · intro j d hj
    rcases updThread_cases hj with ⟨rfl, heq⟩ | ⟨hne, hold⟩
    · simp at heq
    · exact hI.waiting_call j d hold
  · intro j d v f e hj
    rcases updThread_cases hj with ⟨rfl, heq⟩ | ⟨hne, hold⟩
    · injection heq with h₁ h₂ h₃ h₄
      subst h₁; subst h₂; subst h₃; subst h₄
      exact ⟨c, hc, hI.done_finalized _ c hc hd, rfl, rfl, hd⟩
    · exact hI.finished_call j d v f e hold

theorem inv_create {S : Config α} {i : Nat} {key : Key} {fn : Option α × Option Err}
    (hI : Inv S) (hth : S.threads i = some (.start key fn)) (hreg : S.reg key = none) :
    Inv (S.createSucc i key fn) := by
  have hcnone : S.calls S.next = none := hI.next_calls S.next (Nat.le_refl _)
  refine { next_calls := ?_, owner_lt := ?_, owner_uniq := ?_, owner_exists := ?_,
           reg_owner := ?_, exec_state := ?_, removing_state := ?_, signaling_state := ?_,
           finalized_vals := ?_, unfinalized_runs := ?_, done_finalized := ?_,
           done_unreg := ?_, waiting_call := ?_, finished_call := ?_ }
  · intro d hd
    have hd' : S.next + 1 ≤ d := hd
    show (if d = S.next then some (newCall fn) else S.calls d) = none
    rw [if_neg (by omega)]
    exact hI.next_calls d (by omega)
  · intro j t d hj ho
    show d < S.next + 1
    rcases updThread_cases hj with ⟨rfl, rfl⟩ | ⟨hne, hold⟩
    · have hd : S.next = d := ho
      omega
    · have := hI.owner_lt j t d hold ho
      omega
  · intro j₁ j₂ t₁ t₂ d h₁ h₂ o₁ o₂
    rcases updThread_cases h₁ with ⟨rfl, rfl⟩ | ⟨hn₁, ho₁⟩
    · rcases updThread_cases h₂ with ⟨heq, rfl⟩ | ⟨hn₂, ho₂⟩
      · exact heq.symm
      · have hd : S.next = d := o₁
        have := hI.owner_lt j₂ t₂ d ho₂ o₂
        omega
    · rcases updThread_cases h₂ with ⟨rfl, rfl⟩ | ⟨hn₂, ho₂⟩
      · have hd : S.next = d := o₂
        have := hI.owner_lt j₁ t₁ d ho₁ o₁
        omega
      · exact hI.owner_uniq j₁ j₂ t₁ t₂ d ho₁ ho₂ o₁ o₂
  · intro d c hc
    by_cases hdn : d = S.next
    · subst hdn
      refine ⟨i, .exec key S.next fn, ?_, ownerOf_exec⟩
      show updThread S.threads i (.exec key S.next fn) i = some (.exec key S.next fn)
      exact updThread_self
    · rw [show (S.createSucc i key fn).calls d =
          (if d = S.next then some (newCall fn) else S.calls d) from rfl, if_neg hdn] at hc
      obtain ⟨j, t, hjt, hot⟩ := hI.owner_exists d c hc
      have hji : j ≠ i := by
        intro hji
        subst hji
        rw [hth] at hjt
        injection hjt with hjt
        subst hjt
        exact absurd hot (by simp [ownerOf])
      refine ⟨j, t, ?_, hot⟩
      show updThread S.threads i (.exec key S.next fn) j = some t
      rw [updThread_ne hji]
      exact hjt
  · intro k d hk
    by_cases hkk : k = key
    · subst hkk
      rw [show (S.createSucc i k fn).reg k =
          (if k = k then some S.next else S.reg k) from rfl, if_pos rfl] at hk
      injection hk with hk
      subst hk
      refine ⟨i, Or.inl ⟨fn, ?_⟩⟩
      show updThread S.threads i (.exec k S.next fn) i = some (.exec k S.next fn)
      exact updThread_self
    · rw [show (S.createSucc i key fn).reg k =
          (if k = key then some S.next else S.reg k) from rfl, if_neg hkk] at hk
      obtain ⟨j, hj⟩ := hI.reg_owner k d hk
      have hji : j ≠ i := by
        intro hji
        subst hji
        rcases hj with ⟨fn₂, hj⟩ | hj <;> rw [hth] at hj <;> simp at hj
      refine ⟨j, ?_⟩
      show (∃ fn₂, updThread S.threads i (.exec key S.next fn) j = some (.exec k d fn₂)) ∨
        updThread S.threads i (.exec key S.next fn) j = some (.removing k d)
      rw [updThread_ne hji]
      exact hj
  · intro j k d fn₂ hj
    rcases updThread_cases hj with ⟨rfl, heq⟩ | ⟨hne, hold⟩
    · injection heq with h₁ h₂ h₃
      subst h₁; subst h₂; subst h₃
      refine ⟨?_, newCall fn₂, ?_, rfl, rfl, rfl, rfl⟩
      · show (if k = k then some S.next else S.reg k) = some S.next
        rw [if_pos rfl]
      · show (if S.next = S.next then some (newCall fn₂) else S.calls S.next) =
          some (newCall fn₂)
        rw [if_pos rfl]
    · obtain ⟨hrk, c, hcc, h0, hf, hdo, hfn⟩ := hI.exec_state j k d fn₂ hold
      have hkk : k ≠ key := by
        intro hkk
        rw [hkk, hreg] at hrk
        exact Option.noConfusion hrk
      have hdn : d ≠ S.next := by
        intro hdn
        rw [hdn, hcnone] at hcc
        exact Option.noConfusion hcc
      refine ⟨?_, c, ?_, h0, hf, hdo, hfn⟩
      · show (if k = key then some S.next else S.reg k) = some d
        rw [if_neg hkk]
        exact hrk
      · show (if d = S.next then some (newCall fn) else S.calls d) = some c
        rw [if_neg hdn]
        exact hcc
  · intro j k d hj
    rcases updThread_cases hj with ⟨rfl, heq⟩ | ⟨hne, hold⟩
    · simp at heq
    · obtain ⟨hrk, c, hcc, hf, hdo⟩ := hI.removing_state j k d hold
      have hkk : k ≠ key := by
        intro hkk
        rw [hkk, hreg] at hrk
        exact Option.noConfusion hrk
      have hdn : d ≠ S.next := by
        intro hdn
        rw [hdn, hcnone] at hcc
        exact Option.noConfusion hcc
      refine ⟨?_, c, ?_, hf, hdo⟩
      · show (if k = key then some S.next else S.reg k) = some d
        rw [if_neg hkk]
        exact hrk
      · show (if d = S.next then some (newCall fn) else S.calls d) = some c
        rw [if_neg hdn]
        exact hcc
  · intro j d hj
    rcases updThread_cases hj with ⟨rfl, heq⟩ | ⟨hne, hold⟩
    · simp at heq
    · obtain ⟨hnr, c, hcc, hf, hdo⟩ := hI.signaling_state j d hold
      have hdn : d ≠ S.next := by
        intro hdn
        rw [hdn, hcnone] at hcc
        exact Option.noConfusion hcc
      refine ⟨?_, c, ?_, hf, hdo⟩
      · intro k
        show (if k = key then some S.next else S.reg k) ≠ some d
        by_cases hkk : k = key
        · rw [if_pos hkk]
          intro hco
          injection hco with hco
          exact hdn hco.symm
        · rw [if_neg hkk]
          exact hnr k
      · show (if d = S.next then some (newCall fn) else S.calls d) = some c
        rw [if_neg hdn]
        exact hcc
  · intro d c hc hfin
    by_cases hdn : d = S.next
    · subst hdn
      rw [show (S.createSucc i key fn).calls S.next =
          (if S.next = S.next then some (newCall fn) else S.calls S.next) from rfl,
        if_pos rfl] at hc
      injection hc with hc
      rw [← hc] at hfin
      simp [newCall] at hfin
    · rw [show (S.createSucc i key fn).calls d =
          (if d = S.next then some (newCall fn) else S.calls d) from rfl, if_neg hdn] at hc
      exact hI.finalized_vals d c hc hfin
  · intro d c hc hfin
    by_cases hdn : d = S.next
    · subst hdn
      rw [show (S.createSucc i key fn).calls S.next =
          (if S.next = S.next then some (newCall fn) else S.calls S.next) from rfl,
        if_pos rfl] at hc
      injection hc with hc
      rw [← hc]
      rfl
    · rw [show (S.createSucc i key fn).calls d =
          (if d = S.next then some (newCall fn) else S.calls d) from rfl, if_neg hdn] at hc
      exact hI.unfinalized_runs d c hc hfin
  · intro d c hc hdone
    by_cases hdn : d = S.next
    · subst hdn
      rw [show (S.createSucc i key fn).calls S.next =
          (if S.next = S.next then some (newCall fn) else S.calls S.next) from rfl,
        if_pos rfl] at hc
      injection hc with hc
      rw [← hc] at hdone
      simp [newCall] at hdone
    · rw [show (S.createSucc i key fn).calls d =
          (if d = S.next then some (newCall fn) else S.calls d) from rfl, if_neg hdn] at hc
      exact hI.done_finalized d c hc hdone
  · intro d c k hc hdone
    by_cases hdn : d = S.next
    · subst hdn
      rw [show (S.createSucc i key fn).calls S.next =
          (if S.next = S.next then some (newCall fn) else S.calls S.next) from rfl,
        if_pos rfl] at hc
      injection hc with hc
      rw [← hc] at hdone
      simp [newCall] at hdone
    · rw [show (S.createSucc i key fn).calls d =
          (if d = S.next then some (newCall fn) else S.calls d) from rfl, if_neg hdn] at hc
      have hold := hI.done_unreg d c k hc hdone
      show (if k = key then some S.next else S.reg k) ≠ some d
      by_cases hkk : k = key
      · rw [if_pos hkk]
        intro hco
        injection hco with hco
        exact hdn hco.symm
      · rw [if_neg hkk]
        exact hold
  · intro j d hj
    rcases updThread_cases hj with ⟨rfl, heq⟩ | ⟨hne, hold⟩
    · simp at heq
    · by_cases hdn : d = S.next
      · subst hdn
        refine ⟨newCall fn, ?_⟩
        show (if S.next = S.next then some (newCall fn) else S.calls S.next) =
          some (newCall fn)
        rw [if_pos rfl]
      · obtain ⟨c, hcc⟩ := hI.waiting_call j d hold
        refine ⟨c, ?_⟩
        show (if d = S.next then some (newCall fn) else S.calls d) = some c
        rw [if_neg hdn]
        exact hcc
  · intro j d v f e hj
    rcases updThread_cases hj with ⟨rfl, heq⟩ | ⟨hne, hold⟩
    · simp at heq
    · obtain ⟨c, hcc, hfin, hv, he, hdone⟩ := hI.finished_call j d v f e hold
      have hdn : d ≠ S.next := by
        intro hdn
        rw [hdn, hcnone] at hcc
        exact Option.noConfusion hcc
      refine ⟨c, ?_, hfin, hv, he, hdone⟩
      show (if d = S.next then some (newCall fn) else S.calls d) = some c
      rw [if_neg hdn]
      exact hcc

theorem inv_runFn {S : Config α} {i : Nat} {key : Key} {cid : Nat}
    {fn : Option α × Option Err} {c : Call α}
    (hI : Inv S) (hth : S.threads i = some (.exec key cid fn)) (hc : S.calls cid = some c) :
    Inv (S.runFnSucc i key cid fn c) := by
  obtain ⟨hregk, c₀, hc₀, hr0, hf0, hd0, hfn0⟩ := hI.exec_state i key cid fn hth
  rw [hc] at hc₀
  injection hc₀ with hc₀
  subst hc₀
  have hcidlt : cid < S.next := hI.owner_lt i _ cid hth ownerOf_exec
  refine { next_calls := ?_, owner_lt := ?_, owner_uniq := ?_, owner_exists := ?_,
           reg_owner := ?_, exec_state := ?_, removing_state := ?_, signaling_state := ?_,
           finalized_vals := ?_, unfinalized_runs := ?_, done_finalized := ?_,
           done_unreg := ?_, waiting_call := ?_, finished_call := ?_ }
  · intro d hd
    have hd' : S.next ≤ d := hd
    show (if d = cid then
        some (storeResult c fn)
      else S.calls d) = none
    rw [if_neg (by omega)]
    exact hI.next_calls d hd'
  · intro j t d hj ho
    show d < S.next
    rcases updThread_cases hj with ⟨rfl, rfl⟩ | ⟨hne, hold⟩
    · have hd : cid = d := ho
      omega
    · exact hI.owner_lt j t d hold ho
  · intro j₁ j₂ t₁ t₂ d h₁ h₂ o₁ o₂
    rcases updThread_cases h₁ with ⟨rfl, rfl⟩ | ⟨hn₁, ho₁⟩
    · rcases updThread_cases h₂ with ⟨heq, rfl⟩ | ⟨hn₂, ho₂⟩
      · exact heq.symm
      · have hd : cid = d := o₁
        subst hd
        exact hI.owner_uniq j₁ j₂ _ t₂ cid hth ho₂ ownerOf_exec o₂
    · rcases updThread_cases h₂ with ⟨rfl, rfl⟩ | ⟨hn₂, ho₂⟩
      · have hd : cid = d := o₂
        subst hd
        exact hI.owner_uniq j₁ j₂ t₁ _ cid ho₁ hth o₁ ownerOf_exec
      · exact hI.owner_uniq j₁ j₂ t₁ t₂ d ho₁ ho₂ o₁ o₂
  · intro d c₂ hc₂
    by_cases hdc : d = cid
    · subst hdc
      refine ⟨i, .removing key d, ?_, ownerOf_removing⟩
      show updThread S.threads i (.removing key d) i = some (.removing key d)
      exact updThread_self
    · rw [show (S.runFnSucc i key cid fn c).calls d = (if d = cid then
          some (storeResult c fn)
        else S.calls d) from rfl, if_neg hdc] at hc₂
      obtain ⟨j, t, hjt, hot⟩ := hI.owner_exists d c₂ hc₂
      have hji : j ≠ i := by
        intro hji
        subst hji
        rw [hth] at hjt
        injection hjt with hjt
        subst hjt
        exact hdc (hot : cid = d).symm
      refine ⟨j, t, ?_, hot⟩
      show updThread S.threads i (.removing key cid) j = some t
      rw [updThread_ne hji]
      exact hjt
  · intro k d hk
    obtain ⟨j, hj⟩ := hI.reg_owner k d hk
    by_cases hji : j = i
    · subst hji
      rcases hj with ⟨fn₂, hj⟩ | hj
      · rw [hth] at hj
        injection hj with hj
        injection hj with h₁ h₂ h₃
        subst h₁; subst h₂
        refine ⟨j, Or.inr ?_⟩
        show updThread S.threads j (.removing key cid) j = some (.removing key cid)
        exact updThread_self
      · rw [hth] at hj
        simp at hj
    · refine ⟨j, ?_⟩
      show (∃ fn₂, updThread S.threads i (.removing key cid) j = some (.exec k d fn₂)) ∨
        updThread S.threads i (.removing key cid) j = some (.removing k d)
      rw [updThread_ne hji]
      exact hj
  · intro j k d fn₂ hj
    rcases updThread_cases hj with ⟨rfl, heq⟩ | ⟨hne, hold⟩
    · simp at heq
    · obtain ⟨hrk, c₂, hcc₂, h0, hf, hdo, hfn⟩ := hI.exec_state j k d fn₂ hold
      have hdc : d ≠ cid := by
        intro hdc
        subst hdc
        exact hne (hI.owner_uniq j i _ _ d hold hth ownerOf_exec ownerOf_exec)
      refine ⟨hrk, c₂, ?_, h0, hf, hdo, hfn⟩
      show (if d = cid then
          some (storeResult c fn)
        else S.calls d) = some c₂
      rw [if_neg hdc]
      exact hcc₂
  · intro j k d hj
    rcases updThread_cases hj with ⟨rfl, heq⟩ | ⟨hne, hold⟩
    · injection heq with h₁ h₂
      subst h₁; subst h₂
      refine ⟨hregk, storeResult c fn, ?_, rfl, hd0⟩
      show (if d = d then some (storeResult c fn) else S.calls d) = some (storeResult c fn)
      rw [if_pos rfl]
    · obtain ⟨hrk, c₂, hcc₂, hf, hdo⟩ := hI.removing_state j k d hold
      have hdc : d ≠ cid := by
        intro hdc
        subst hdc
        exact hne (hI.owner_uniq j i _ _ d hold hth ownerOf_removing ownerOf_exec)
      refine ⟨hrk, c₂, ?_, hf, hdo⟩
      show (if d = cid then
          some (storeResult c fn)
        else S.calls d) = some c₂
      rw [if_neg hdc]
      exact hcc₂
  · intro j d hj
    rcases updThread_cases hj with ⟨rfl, heq⟩ | ⟨hne, hold⟩
    · simp at heq
    · obtain ⟨hnr, c₂, hcc₂, hf, hdo⟩ := hI.signaling_state j d hold
      have hdc : d ≠ cid := by
        intro hdc
        subst hdc
        exact hne (hI.owner_uniq j i _ _ d hold hth ownerOf_signaling ownerOf_exec)
      refine ⟨hnr, c₂, ?_, hf, hdo⟩
      show (if d = cid then
          some (storeResult c fn)
        else S.calls d) = some c₂
      rw [if_neg hdc]
      exact hcc₂
  · intro d c₂ hc₂ hfin
    by_cases hdc : d = cid
    · subst hdc
      rw [show (S.runFnSucc i key d fn c).calls d = (if d = d then
          some (storeResult c fn)
        else S.calls d) from rfl, if_pos rfl] at hc₂
      injection hc₂ with hc₂
      rw [← hc₂]
      refine ⟨?_, ?_, ?_⟩
      · show fn.1 = c.fn.1
        rw [hfn0]
      · show fn.2 = c.fn.2
        rw [hfn0]
      · show c.runs + 1 = 1
        rw [hr0]
    · rw [show (S.runFnSucc i key cid fn c).calls d = (if d = cid then
          some (storeResult c fn)
        else S.calls d) from rfl, if_neg hdc] at hc₂
      exact hI.finalized_vals d c₂ hc₂ hfin
  · intro d c₂ hc₂ hfin
    by_cases hdc : d = cid
    · subst hdc
      rw [show (S.runFnSucc i key d fn c).calls d = (if d = d then
          some (storeResult c fn)
        else S.calls d) from rfl, if_pos rfl] at hc₂
      injection hc₂ with hc₂
      rw [← hc₂] at hfin
      simp [storeResult] at hfin
    · rw [show (S.runFnSucc i key cid fn c).calls d = (if d = cid then
          some (storeResult c fn)
        else S.calls d) from rfl, if_neg hdc] at hc₂
      exact hI.unfinalized_runs d c₂ hc₂ hfin
  · intro d c₂ hc₂ hdone
    by_cases hdc : d = cid
    · subst hdc
      rw [show (S.runFnSucc i key d fn c).calls d = (if d = d then
          some (storeResult c fn)
        else S.calls d) from rfl, if_pos rfl] at hc₂
      injection hc₂ with hc₂
      rw [← hc₂] at hdone
      have hdone₂ : c.done = true := hdone
      rw [hd0] at hdone₂
      cases hdone₂
    · rw [show (S.runFnSucc i key cid fn c).calls d = (if d = cid then
          some (storeResult c fn)
        else S.calls d) from rfl, if_neg hdc] at hc₂
      exact hI.done_finalized d c₂ hc₂ hdone
  · intro d c₂ k hc₂ hdone
    by_cases hdc : d = cid
    · subst hdc
      rw [show (S.runFnSucc i key d fn c).calls d = (if d = d then
          some (storeResult c fn)
        else S.calls d) from rfl, if_pos rfl] at hc₂
      injection hc₂ with hc₂
      rw [← hc₂] at hdone
      have hdone₂ : c.done = true := hdone
      rw [hd0] at hdone₂
      cases hdone₂
    · rw [show (S.runFnSucc i key cid fn c).calls d = (if d = cid then
          some (storeResult c fn)
        else S.calls d) from rfl, if_neg hdc] at hc₂
      exact hI.done_unreg d c₂ k hc₂ hdone
  · intro j d hj
    rcases updThread_cases hj with ⟨rfl, heq⟩ | ⟨hne, hold⟩
    · simp at heq
    · obtain ⟨c₂, hcc₂⟩ := hI.waiting_call j d hold
      by_cases hdc : d = cid
      · subst hdc
        refine ⟨storeResult c fn, ?_⟩
        show (if d = d then
            some (storeResult c fn)
          else S.calls d) =
          some (storeResult c fn)
        rw [if_pos rfl]
      · refine ⟨c₂, ?_⟩
        show (if d = cid then
            some (storeResult c fn)
          else S.calls d) = some c₂
        rw [if_neg hdc]
        exact hcc₂
  · intro j d v f e hj
    rcases updThread_cases hj with ⟨rfl, heq⟩ | ⟨hne, hold⟩
    · simp at heq
    · obtain ⟨c₂, hcc₂, hfin₂, hv₂, he₂, hdone₂⟩ := hI.finished_call j d v f e hold
      have hdc : d ≠ cid := by
        intro hdc
        subst hdc
        rw [hc] at hcc₂
        injection hcc₂ with hcc₂
        rw [← hcc₂] at hdone₂
        rw [hd0] at hdone₂
        cases hdone₂
      refine ⟨c₂, ?_, hfin₂, hv₂, he₂, hdone₂⟩
      show (if d = cid then
          some (storeResult c fn)
        else S.calls d) = some c₂
      rw [if_neg hdc]
      exact hcc₂

theorem inv_remove {S : Config α} {i : Nat} {key : Key} {cid : Nat}
    (hI : Inv S) (hth : S.threads i = some (.removing key cid)) :
    Inv (S.removeSucc i key cid) := by
  obtain ⟨hregk, c, hcc, hfin, hdone0⟩ := hI.removing_state i key cid hth
  have hcidlt : cid < S.next := hI.owner_lt i _ cid hth ownerOf_removing
  have hkuniq : ∀ k, S.reg k = some cid → k = key := by
    intro k hk
    obtain ⟨j, hj⟩ := hI.reg_owner k cid hk
    rcases hj with ⟨fn₂, hj⟩ | hj
    · have hji := hI.owner_uniq j i _ _ cid hj hth ownerOf_exec ownerOf_removing
      subst hji
      rw [hth] at hj
      simp at hj
    · have hji := hI.owner_uniq j i _ _ cid hj hth ownerOf_removing ownerOf_removing
      subst hji
      rw [hth] at hj
      injection hj with hj
      injection hj with h₁ h₂
      exact h₁.symm
  refine { next_calls := hI.next_calls,
           owner_lt := ?_, owner_uniq := ?_, owner_exists := ?_,
           reg_owner := ?_, exec_state := ?_, removing_state := ?_, signaling_state := ?_,
           finalized_vals := hI.finalized_vals, unfinalized_runs := hI.unfinalized_runs,
           done_finalized := hI.done_finalized,
           done_unreg := ?_, waiting_call := ?_, finished_call := ?_ }
  · intro j t d hj ho
    show d < S.next
    rcases updThread_cases hj with ⟨rfl, rfl⟩ | ⟨hne, hold⟩
    · have hd : cid = d := ho
      omega
    · exact hI.owner_lt j t d hold ho
  · intro j₁ j₂ t₁ t₂ d h₁ h₂ o₁ o₂
    rcases updThread_cases h₁ with ⟨rfl, rfl⟩ | ⟨hn₁, ho₁⟩
    · rcases updThread_cases h₂ with ⟨heq, rfl⟩ | ⟨hn₂, ho₂⟩
      · exact heq.symm
      · have hd : cid = d := o₁
        subst hd
        exact hI.owner_uniq j₁ j₂ _ t₂ cid hth ho₂ ownerOf_removing o₂
    · rcases updThread_cases h₂ with ⟨rfl, rfl⟩ | ⟨hn₂, ho₂⟩
      · have hd : cid = d := o₂
        subst hd
        exact hI.owner_uniq j₁ j₂ t₁ _ cid ho₁ hth o₁ ownerOf_removing
      · exact hI.owner_uniq j₁ j₂ t₁ t₂ d ho₁ ho₂ o₁ o₂
  · intro d c₂ hc₂
    by_cases hdc : d = cid
    · subst hdc
      refine ⟨i, .signaling d, ?_, ownerOf_signaling⟩
      show updThread S.threads i (.signaling d) i = some (.signaling d)
      exact updThread_self
    · obtain ⟨j, t, hjt, hot⟩ := hI.owner_exists d c₂ hc₂
      have hji : j ≠ i := by
        intro hji
        subst hji
        rw [hth] at hjt
        injection hjt with hjt
        subst hjt
        exact hdc (hot : cid = d).symm
      refine ⟨j, t, ?_, hot⟩
      show updThread S.threads i (.signaling cid) j = some t
      rw [updThread_ne hji]
      exact hjt
  · intro k d hk
    by_cases hkk : k = key
    · rw [show (S.removeSucc i key cid).reg k = (if k = key then none else S.reg k) from rfl,
        if_pos hkk] at hk
      exact Option.noConfusion hk
    · rw [show (S.removeSucc i key cid).reg k = (if k = key then none else S.reg k) from rfl,
        if_neg hkk] at hk
      obtain ⟨j, hj⟩ := hI.reg_owner k d hk
      have hji : j ≠ i := by
        intro hji
        subst hji
        rcases hj with ⟨fn₂, hj⟩ | hj <;> rw [hth] at hj
        · simp at hj
        · injection hj with hj
          injection hj with h₁ h₂
          exact hkk h₁.symm
      refine ⟨j, ?_⟩
      show (∃ fn₂, updThread S.threads i (.signaling cid) j = some (.exec k d fn₂)) ∨
        updThread S.threads i (.signaling cid) j = some (.removing k d)
      rw [updThread_ne hji]
      exact hj
  · intro j k d fn₂ hj
    rcases updThread_cases hj with ⟨rfl, heq⟩ | ⟨hne, hold⟩
    · simp at heq
    · obtain ⟨hrk, c₂, hcc₂, h0, hf, hdo, hfn⟩ := hI.exec_state j k d fn₂ hold
      have hkk : k ≠ key := by
        intro hkk
        subst hkk
        rw [hregk] at hrk
        injection hrk with hrk
        subst hrk
        exact hne (hI.owner_uniq j i _ _ cid hold hth ownerOf_exec ownerOf_removing)
      refine ⟨?_, c₂, hcc₂, h0, hf, hdo, hfn⟩
      show (if k = key then none else S.reg k) = some d
      rw [if_neg hkk]
      exact hrk
  · intro j k d hj
    rcases updThread_cases hj with ⟨rfl, heq⟩ | ⟨hne, hold⟩
    · simp at heq
    · obtain ⟨hrk, c₂, hcc₂, hf, hdo⟩ := hI.removing_state j k d hold
      have hkk : k ≠ key := by
        intro hkk
        subst hkk
        rw [hregk] at hrk
        injection hrk with hrk
        subst hrk
        exact hne (hI.owner_uniq j i _ _ cid hold hth ownerOf_removing ownerOf_removing)
      refine ⟨?_, c₂, hcc₂, hf, hdo⟩
      show (if k = key then none else S.reg k) = some d
      rw [if_neg hkk]
      exact hrk
  · intro j d hj
    rcases updThread_cases hj with ⟨rfl, heq⟩ | ⟨hne, hold⟩
    · injection heq with h₁
      subst h₁
      refine ⟨?_, c, hcc, hfin, hdone0⟩
      intro k
      show (if k = key then none else S.reg k) ≠ some d
      by_cases hkk : k = key
      · rw [if_pos hkk]
        exact fun hco => Option.noConfusion hco
      · rw [if_neg hkk]
        intro hco
        exact hkk (hkuniq k hco)
    · obtain ⟨hnr, c₂, hcc₂, hf, hdo⟩ := hI.signaling_state j d hold
      refine ⟨?_, c₂, hcc₂, hf, hdo⟩
      intro k
      show (if k = key then none else S.reg k) ≠ some d
      by_cases hkk : k = key
      · rw [if_pos hkk]
        exact fun hco => Option.noConfusion hco
      · rw [if_neg hkk]
        exact hnr k
  · intro d c₂ k hc₂ hdone
    have hold := hI.done_unreg d c₂ k hc₂ hdone
    show (if k = key then none else S.reg k) ≠ some d
    by_cases hkk : k = key
    · rw [if_pos hkk]
      exact fun hco => Option.noConfusion hco
    · rw [if_neg hkk]
      exact hold
  · intro j d hj
    rcases updThread_cases hj with ⟨rfl, heq⟩ | ⟨hne, hold⟩
    · simp at heq
    · exact hI.waiting_call j d hold
  · intro j d v f e hj
    rcases updThread_cases hj with ⟨rfl, heq⟩ | ⟨hne, hold⟩
    · simp at heq
    · exact hI.finished_call j d v f e hold

theorem inv_signal {S : Config α} {i : Nat} {cid : Nat} {c : Call α}
    (hI : Inv S) (hth : S.threads i = some (.signaling cid)) (hc : S.calls cid = some c) :
    Inv (S.signalSucc i cid c) := by
  obtain ⟨hnr, c₀, hc₀, hfin0, hdone0⟩ := hI.signaling_state i cid hth
  rw [hc] at hc₀
  injection hc₀ with hc₀
  subst hc₀
  have hcidlt : cid < S.next := hI.owner_lt i _ cid hth ownerOf_signaling
  refine { next_calls := ?_, owner_lt := ?_, owner_uniq := ?_, owner_exists := ?_,
           reg_owner := ?_, exec_state := ?_, removing_state := ?_, signaling_state := ?_,
           finalized_vals := ?_, unfinalized_runs := ?_, done_finalized := ?_,
           done_unreg := ?_, waiting_call := ?_, finished_call := ?_ }
  · intro d hd
    have hd' : S.next ≤ d := hd
    show (if d = cid then some { c with done := true } else S.calls d) = none
    rw [if_neg (by omega)]
    exact hI.next_calls d hd'
  · intro j t d hj ho
    show d < S.next
    rcases updThread_cases hj with ⟨rfl, rfl⟩ | ⟨hne, hold⟩
    · have hd : cid = d := ho.1
      omega
    · exact hI.owner_lt j t d hold ho
  · intro j₁ j₂ t₁ t₂ d h₁ h₂ o₁ o₂
    rcases updThread_cases h₁ with ⟨rfl, rfl⟩ | ⟨hn₁, ho₁⟩
    · rcases updThread_cases h₂ with ⟨heq, rfl⟩ | ⟨hn₂, ho₂⟩
      · exact heq.symm
      · have hd : cid = d := o₁.1
        subst hd
        exact hI.owner_uniq j₁ j₂ _ t₂ cid hth ho₂ ownerOf_signaling o₂
    · rcases updThread_cases h₂ with ⟨rfl, rfl⟩ | ⟨hn₂, ho₂⟩
      · have hd : cid = d := o₂.1
        subst hd
        exact hI.owner_uniq j₁ j₂ t₁ _ cid ho₁ hth o₁ ownerOf_signaling
      · exact hI.owner_uniq j₁ j₂ t₁ t₂ d ho₁ ho₂ o₁ o₂
  · intro d c₂ hc₂
    by_cases hdc : d = cid
    · subst hdc
      refine ⟨i, .finished d c.val true c.err, ?_, ownerOf_finished⟩
      show updThread S.threads i (.finished d c.val true c.err) i =
        some (.finished d c.val true c.err)
      exact updThread_self
    · rw [show (S.signalSucc i cid c).calls d =
          (if d = cid then some { c with done := true } else S.calls d) from rfl,
        if_neg hdc] at hc₂
      obtain ⟨j, t, hjt, hot⟩ := hI.owner_exists d c₂ hc₂
      have hji : j ≠ i := by
        intro hji
        subst hji
        rw [hth] at hjt
        injection hjt with hjt
        subst hjt
        exact hdc (hot : cid = d).symm
      refine ⟨j, t, ?_, hot⟩
      show updThread S.threads i (.finished cid c.val true c.err) j = some t
      rw [updThread_ne hji]
      exact hjt
  · intro k d hk
    obtain ⟨j, hj⟩ := hI.reg_owner k d hk
    have hji : j ≠ i := by
      intro hji
      subst hji
      rcases hj with ⟨fn₂, hj⟩ | hj <;> rw [hth] at hj <;> simp at hj
    refine ⟨j, ?_⟩
    show (∃ fn₂, updThread S.threads i (.finished cid c.val true c.err) j =
        some (.exec k d fn₂)) ∨
      updThread S.threads i (.finished cid c.val true c.err) j = some (.removing k d)
    rw [updThread_ne hji]
    exact hj
  · intro j k d fn₂ hj
    rcases updThread_cases hj with ⟨rfl, heq⟩ | ⟨hne, hold⟩
    · simp at heq
    · obtain ⟨hrk, c₂, hcc₂, h0, hf, hdo, hfn⟩ := hI.exec_state j k d fn₂ hold
      have hdc : d ≠ cid := by
        intro hdc
        subst hdc
        exact hne (hI.owner_uniq j i _ _ d hold hth ownerOf_exec ownerOf_signaling)
      refine ⟨hrk, c₂, ?_, h0, hf, hdo, hfn⟩
      show (if d = cid then some { c with done := true } else S.calls d) = some c₂
      rw [if_neg hdc]
      exact hcc₂
  · intro j k d hj
    rcases updThread_cases hj with ⟨rfl, heq⟩ | ⟨hne, hold⟩
    · simp at heq
    · obtain ⟨hrk, c₂, hcc₂, hf, hdo⟩ := hI.removing_state j k d hold
      have hdc : d ≠ cid := by
        intro hdc
        subst hdc
        exact hne (hI.owner_uniq j i _ _ d hold hth ownerOf_removing ownerOf_signaling)
      refine ⟨hrk, c₂, ?_, hf, hdo⟩
      show (if d = cid then some { c with done := true } else S.calls d) = some c₂
      rw [if_neg hdc]
      exact hcc₂
  · intro j d hj
    rcases updThread_cases hj with ⟨rfl, heq⟩ | ⟨hne, hold⟩
    · simp at heq
    · obtain ⟨hnr₂, c₂, hcc₂, hf, hdo⟩ := hI.signaling_state j d hold
      have hdc : d ≠ cid := by
        intro hdc
        subst hdc
        exact hne (hI.owner_uniq j i _ _ d hold hth ownerOf_signaling ownerOf_signaling)
      refine ⟨hnr₂, c₂, ?_, hf, hdo⟩
      show (if d = cid then some { c with done := true } else S.calls d) = some c₂
      rw [if_neg hdc]
      exact hcc₂
  · intro d c₂ hc₂ hfin
    by_cases hdc : d = cid
    · subst hdc
      rw [show (S.signalSucc i d c).calls d =
          (if d = d then some { c with done := true } else S.calls d) from rfl,
        if_pos rfl] at hc₂
      injection hc₂ with hc₂
      rw [← hc₂]
      exact hI.finalized_vals d c hc hfin0
    · rw [show (S.signalSucc i cid c).calls d =
          (if d = cid then some { c with done := true } else S.calls d) from rfl,
        if_neg hdc] at hc₂
      exact hI.finalized_vals d c₂ hc₂ hfin
  · intro d c₂ hc₂ hfin
    by_cases hdc : d = cid
    · subst hdc
      rw [show (S.signalSucc i d c).calls d =
          (if d = d then some { c with done := true } else S.calls d) from rfl,
        if_pos rfl] at hc₂
      injection hc₂ with hc₂
      rw [← hc₂] at hfin
      have hfin₂ : c.finalized = false := hfin
      rw [hfin0] at hfin₂
      cases hfin₂
    · rw [show (S.signalSucc i cid c).calls d =
          (if d = cid then some { c with done := true } else S.calls d) from rfl,
        if_neg hdc] at hc₂
      exact hI.unfinalized_runs d c₂ hc₂ hfin
  · intro d c₂ hc₂ hdone
    by_cases hdc : d = cid
    · subst hdc
      rw [show (S.signalSucc i d c).calls d =
          (if d = d then some { c with done := true } else S.calls d) from rfl,
        if_pos rfl] at hc₂
      injection hc₂ with hc₂
      rw [← hc₂]
      exact hfin0
    · rw [show (S.signalSucc i cid c).calls d =
          (if d = cid then some { c with done := true } else S.calls d) from rfl,
        if_neg hdc] at hc₂
      exact hI.done_finalized d c₂ hc₂ hdone
  · intro d c₂ k hc₂ hdone
    by_cases hdc : d = cid
    · subst hdc
      exact hnr k
    · rw [show (S.signalSucc i cid c).calls d =
          (if d = cid then some { c with done := true } else S.calls d) from rfl,
        if_neg hdc] at hc₂
      exact hI.done_unreg d c₂ k hc₂ hdone
  · intro j d hj
    rcases updThread_cases hj with ⟨rfl, heq⟩ | ⟨hne, hold⟩
    · simp at heq
    · obtain ⟨c₂, hcc₂⟩ := hI.waiting_call j d hold
      by_cases hdc : d = cid
      · subst hdc
        refine ⟨{ c with done := true }, ?_⟩
        show (if d = d then some { c with done := true } else S.calls d) =
          some { c with done := true }
        rw [if_pos rfl]
      · refine ⟨c₂, ?_⟩
        show (if d = cid then some { c with done := true } else S.calls d) = some c₂
        rw [if_neg hdc]
        exact hcc₂
  · intro j d v f e hj
    rcases updThread_cases hj with ⟨rfl, heq⟩ | ⟨hne, hold⟩
    · injection heq with h₁ h₂ h₃ h₄
      subst h₁; subst h₂; subst h₃; subst h₄
      refine ⟨{ c with done := true }, ?_, hfin0, rfl, rfl, rfl⟩
      show (if d = d then some { c with done := true } else S.calls d) =
        some { c with done := true }
      rw [if_pos rfl]
    · obtain ⟨c₂, hcc₂, hfin₂, hv₂, he₂, hdone₂⟩ := hI.finished_call j d v f e hold
      have hdc : d ≠ cid := by
        intro hdc
        subst hdc
        rw [hc] at hcc₂
        injection hcc₂ with hcc₂
        rw [← hcc₂] at hdone₂
        rw [hdone0] at hdone₂
        cases hdone₂
      refine ⟨c₂, ?_, hfin₂, hv₂, he₂, hdone₂⟩
      show (if d = cid then some { c with done := true } else S.calls d) = some c₂
      rw [if_neg hdc]
      exact hcc₂

theorem inv_step {S T : Config α} (hI : Inv S) (h : Step S T) : Inv T := by
  cases h with
  | join hth hreg => exact inv_join hI hth hreg
  | create hth hreg => exact inv_create hI hth hreg
  | runFn hth hc => exact inv_runFn hI hth hc
  | remove hth => exact inv_remove hI hth
  | signal hth hc => exact inv_signal hI hth hc
  | waitDone hth hc hd => exact inv_waitDone hI hth hc hd

theorem inv_reach {S T : Config α} (hI : Inv S) (h : Reach S T) : Inv T := by
  induction h with
  | refl => exact hI
  | tail hr hs ih => exact inv_step ih hs

/-- Claim C1: in every reachable configuration of the flight group, (a) any
two callers that finished attached to the same call return identical value
and error, and at most one of them reports fresh = true; (b) a caller that
finished with fresh = true triggered its call's work function, which ran
exactly once and produced exactly the returned value and error; (c) no
call's work function ever runs more than once; (d) once every caller has
finished, every call has a caller that finished fresh — so among the
callers sharing one execution exactly one is fresh. -/
theorem singleflight_exactly_once {β : Type} (ts : List (Key × (Option β × Option Err)))
    (S : Config β) (h : Reach (initConfig ts) S) :
    (∀ i j cid v₁ f₁ e₁ v₂ f₂ e₂,
        S.threads i = some (.finished cid v₁ f₁ e₁) →
        S.threads j = some (.finished cid v₂ f₂ e₂) →
        v₁ = v₂ ∧ e₁ = e₂ ∧ (f₁ = true → f₂ = true → i = j)) ∧
    (∀ i cid v e, S.threads i = some (.finished cid v true e) →
        ∃ c, S.calls cid = some c ∧ c.runs = 1 ∧ v = c.fn.1 ∧ e = c.fn.2) ∧
    (∀ cid c, S.calls cid = some c → c.runs ≤ 1) ∧
    ((∀ i t, S.threads i = some t → ∃ cid v f e, t = TState.finished cid v f e) →
      ∀ cid c, S.calls cid = some c →
        ∃ i v e, S.threads i = some (.finished cid v true e)) := by
  have hI : Inv S := inv_reach (inv_init ts) h
  refine ⟨?_, ?_, ?_, ?_⟩
  · intro i j cid v₁ f₁ e₁ v₂ f₂ e₂ h₁ h₂
    obtain ⟨c, hc, hfin, hv, he, hd⟩ := hI.finished_call i cid v₁ f₁ e₁ h₁
    obtain ⟨c₂, hc₂, hfin₂, hv₂, he₂, hd₂⟩ := hI.finished_call j cid v₂ f₂ e₂ h₂
    rw [hc] at hc₂
    injection hc₂ with hcc
    subst hcc
    refine ⟨by rw [← hv, ← hv₂], by rw [← he, ← he₂], ?_⟩
    intro hft₁ hft₂
    subst hft₁
    subst hft₂
    exact hI.owner_uniq i j _ _ cid h₁ h₂ ownerOf_finished ownerOf_finished
  · intro i cid v e hth
    obtain ⟨c, hc, hfin, hv, he, hd⟩ := hI.finished_call i cid v true e hth
    obtain ⟨hcv, hce, hcr⟩ := hI.finalized_vals cid c hc hfin
    exact ⟨c, hc, hcr, by rw [← hv, hcv], by rw [← he, hce]⟩
  · intro cid c hc
    cases hfin : c.finalized with
    | true =>
        obtain ⟨-, -, hr⟩ := hI.finalized_vals cid c hc hfin
        omega
    | false =>
        have := hI.unfinalized_runs cid c hc hfin
        omega
  · intro hall cid c hc
    obtain ⟨i, t, hit, hot⟩ := hI.owner_exists cid c hc
    obtain ⟨cid₂, v, f, e, rfl⟩ := hall i t hit
    obtain ⟨hcid, hfr⟩ := (hot : cid₂ = cid ∧ f = true)
    subst hcid
    subst hfr
    exact ⟨i, v, e, hit⟩

/-- Claim C2: in every reachable configuration, (a) whenever a call's
completion signal has fired, no key is registered to that call any more —
the registry removal strictly precedes the signal; (b) the step that fires
the signal leaves the registry untouched, so no registry state is
observable between the removal and the signal; (c) a caller that finds its
key absent allocates a brand-new record at the fresh id S.next, a slot
where no call (in particular no just-finished call) has ever lived, and
registers the key to it. -/
theorem singleflight_remove_before_signal {β : Type}
    (ts : List (Key × (Option β × Option Err))) (S : Config β)
    (h : Reach (initConfig ts) S) :
    (∀ cid c k, S.calls cid = some c → c.done = true → S.reg k ≠ some cid) ∧
    (∀ i cid c, (S.signalSucc i cid c).reg = S.reg) ∧
    (S.calls S.next = none ∧
      ∀ i key fn, (S.createSucc i key fn).reg key = some S.next ∧
        (S.createSucc i key fn).calls S.next = some (newCall fn)) := by
  have hI : Inv S := inv_reach (inv_init ts) h
  refine ⟨hI.done_unreg, fun i cid c => rfl, hI.next_calls S.next (Nat.le_refl _), ?_⟩
  intro i key fn
  constructor
  · show (if key = key then some S.next else S.reg key) = some S.next
    rw [if_pos rfl]
  · show (if S.next = S.next then some (newCall fn) else S.calls S.next) = some (newCall fn)
    rw [if_pos rfl]

/-! The concrete interleaving of the two example callers. -/

theorem exStep1 : Step exS0 exS1 :=
  Step.create (by decide) (by decide)

theorem exStep2 : Step exS1 exS2 :=
  @Step.join Nat exS1 1 "a" (some 2, none) 0 (by decide) (by decide)

theorem exStep3 : Step exS2 exS3 :=
  Step.runFn (by decide) (by decide)

theorem exStep4 : Step exS3 exS4 :=
  Step.remove (by decide)

theorem exStep5 : Step exS4 exS5 :=
  Step.signal (by decide) (by decide)

theorem exStep6 : Step exS5 exFinal :=
  Step.waitDone (by decide) (by decide) (by decide)

theorem exReach : Reach (initConfig exTs) exFinal :=
  Reach.tail (Reach.tail (Reach.tail (Reach.tail (Reach.tail (Reach.tail
    (Reach.refl _) exStep1) exStep2) exStep3) exStep4) exStep5) exStep6

/-- Claim C1 witness: in the two-caller run, the shared call ran its work
function exactly once and its stored result is the owner's. -/
theorem singleflight_exactly_once_witness :
    ∃ c : Call Nat, exFinal.calls 0 = some c ∧ c.runs = 1 ∧
      some 1 = c.fn.1 ∧ (none : Option Err) = c.fn.2 :=
  (singleflight_exactly_once exTs exFinal exReach).2.1 0 0 (some 1) none (by decide)

/-- Claim C2 witness: in the final configuration of the two-caller run the
signal has fired for call 0, and the key is indeed no longer registered. -/
theorem singleflight_remove_before_signal_witness :
    exFinal.reg "a" ≠ some 0 :=
  (singleflight_remove_before_signal exTs exFinal exReach).1 0 { exC with done := true } "a"
    (by decide) (by decide)

end Syncx
